import Mathlib

/-!
# Lock-based concurrent data structures: embedding and verification

Shallow embedding of the data structures of
`HW7exercise262829/exercise29/ch29_all.c` (approximate sharded counter,
linked list with single-lock and hand-over-hand modes, hash table with
global-lock and per-bucket modes) and of the ticket lock of
`HW8exercise31/mutex-nostarve.c`, together with proofs of the
specification's claims about them.

Machine integers (`int`) are modelled by `Int` (overflow plays no role in
any claim); C's truncating `%` on `int` is `Int.tmod`.  Mutexes serialize
the operations, so sequential claims are proved over sequentialized
executions; the ticket lock, whose claims are genuinely about
interleavings, is modelled as a small-step transition system in which
every atomic statement of the C code is one transition and any thread can
be scheduled at every step.
-/

namespace Ch29

/-! ### Q3: approximate (sharded) counter, ch29_all.c lines 62-69 -/

/-- State of `approx_t` (lines 62-66): a global accumulator, one local
accumulator per shard (`local[]`), the flush threshold and the shard
count.  The mutexes are not represented: every claim about the counter is
about the sequentialized effect of its operations. -/
structure ApproxT where
  global : Int
  locals : List Int
  threshold : Int
  ncpu : Nat
deriving DecidableEq

/-- `approx_init` (line 67): the threshold is stored, the global
accumulator starts at 0, the shard count defaults to 4 when the requested
count is not positive (`ncpu>0?ncpu:4`), and every local counter starts
at 0. -/
def approx_init (th : Int) (ncpu : Int) : ApproxT :=
  let n : Nat := if 0 < ncpu then ncpu.toNat else 4
  { global := 0, threshold := th, ncpu := n, locals := List.replicate n 0 }

/-- `approx_update` (line 68) for a non-negative thread id (for which the
C index `tid % c->ncpu` agrees with `Nat` remainder; `cpuIndex` below
embeds the raw C computation on `int`, including negative ids): increment
the shard's local counter; if it now reaches the threshold
(`local[cpu] >= threshold`), add it into the global accumulator and reset
it to 0. -/
def approx_update (c : ApproxT) (tid : Nat) : ApproxT :=
  let cpu := tid % c.ncpu
  let v := c.locals.getD cpu 0 + 1
  if c.threshold ≤ v then
    { c with global := c.global + v, locals := c.locals.set cpu 0 }
  else
    { c with locals := c.locals.set cpu v }

/-- `approx_get` (line 69): return the global accumulator only. -/
def approx_get (c : ApproxT) : Int := c.global

/-- A finite sequence of `approx_update` calls. -/
def approx_run (c : ApproxT) (tids : List Nat) : ApproxT :=
  tids.foldl approx_update c

/-- Modelled from the spec: the source provides no drain operation (the
spec documents that an exact total "requires draining all shards, not
provided").  Draining adds every per-shard residue into the global
accumulator under the locks and clears the shards. -/
def approx_drain (c : ApproxT) : ApproxT :=
  { c with global := c.global + c.locals.sum,
           locals := List.replicate c.ncpu 0 }

/-- The C shard-index computation `int cpu = tid % c->ncpu;` (line 68),
with C99 truncating `%` on `int`, which is `Int.tmod`. -/
def cpuIndex (tid ncpu : Int) : Int := Int.tmod tid ncpu

/-- Number of increments of a run that are directed at shard `i`. -/
def shardCount (tids : List Nat) (ncpu : Nat) (i : Nat) : Nat :=
  tids.countP (fun t => t % ncpu == i)

/-! ### Q4: linked list, ch29_all.c lines 88-118 -/

/-- `list_t` (line 89): the chain of keys reachable from `head` (head
first) and the hand-over-hand mode flag `hoh`. -/
structure ListT where
  elems : List Int
  hoh : Bool
deriving DecidableEq

/-- `list_init` (line 90): empty chain, mode fixed at construction. -/
def list_init (hoh : Bool) : ListT := { elems := [], hoh := hoh }

/-- `list_insert` (lines 91-104).  `alloc_ok` models whether `malloc`
succeeds; on failure the function returns `-1` before touching the list.
Both lock modes (the two branches of the C `if(!L->hoh)`) link the new
node in front of `head` and return `0`. -/
def list_insert (L : ListT) (key : Int) (alloc_ok : Bool) : ListT × Int :=
  if alloc_ok = false then (L, -1)
  else if L.hoh = false then ({ L with elems := key :: L.elems }, 0)
  else ({ L with elems := key :: L.elems }, 0)

/-- Lock events of a hand-over-hand traversal: the list-head lock
(`L->lock`) and the per-node locks, nodes numbered by their position from
the head at traversal time. -/
inductive LockEv where
  | acqList
  | relList
  | acqNode (i : Nat)
  | relNode (i : Nat)
deriving DecidableEq

/-- The `while(c)` loop of hand-over-hand `list_lookup` (lines 111-115),
entered at node `i`, which is locked and whose key together with the keys
after it is the list argument.  Returns the lock/unlock events in program
order and the C return value (`0` found, `-1` not found).  One element
left: on a hit, unlock and return `0`; otherwise `n = c->next` is null,
so unlock `c` and leave the loop with `-1`.  Two or more: on a hit,
unlock and return `0`; otherwise lock the next node, unlock the current
one and advance. -/
def hohLoopEv (key : Int) : Nat → List Int → List LockEv × Int
  | _, [] => ([], -1)
  | i, [k] => ([.relNode i], if k = key then 0 else -1)
  | i, k :: k2 :: rest =>
      if k = key then ([.relNode i], 0)
      else
        let p := hohLoopEv key (i + 1) (k2 :: rest)
        (.acqNode (i + 1) :: .relNode i :: p.1, p.2)

/-- Hand-over-hand `list_lookup` (lines 109-118): lock the list-head
lock, set `c` to the head, lock `c` if non-null, unlock the head lock,
then run the coupled loop. -/
def list_lookup_hoh_ev (elems : List Int) (key : Int) : List LockEv × Int :=
  match elems with
  | [] => ([.acqList, .relList], -1)
  | _ :: _ =>
      let p := hohLoopEv key 0 elems
      (.acqList :: .acqNode 0 :: .relList :: p.1, p.2)

/-- Single-lock `list_lookup` scan (lines 106-108): `rv = -1`, break with
`0` at the first matching key. -/
def lookup_scan : List Int → Int → Int
  | [], _ => -1
  | k :: rest, key => if k = key then 0 else lookup_scan rest key

/-- `list_lookup` (lines 105-118): dispatch on the mode flag; the
hand-over-hand branch returns the result of the coupled traversal. -/
def list_lookup (L : ListT) (key : Int) : Int :=
  if L.hoh = false then lookup_scan L.elems key
  else (list_lookup_hoh_ev L.elems key).2

/-- A list built by `list_init` followed by successful inserts of the
given keys, in order. -/
def mkList (hoh : Bool) (keys : List Int) : ListT :=
  keys.foldl (fun L k => (list_insert L k true).1) (list_init hoh)

/-- Lock-possession state during a traversal: whether the list-head lock
is held, and which node locks are held. -/
structure Held where
  listLock : Bool
  nodes : List Nat
deriving DecidableEq

/-- Semantics of one lock event: `none` on a locking violation (acquiring
a lock already held, or releasing one that is not held). -/
def applyEv (h : Held) (e : LockEv) : Option Held :=
  match e with
  | .acqList => if h.listLock then none else some { h with listLock := true }
  | .relList => if h.listLock then some { h with listLock := false } else none
  | .acqNode i =>
      if i ∈ h.nodes then none else some { h with nodes := i :: h.nodes }
  | .relNode i =>
      if i ∈ h.nodes then some { h with nodes := h.nodes.erase i } else none

/-- Checker for a hand-over-hand event trace starting in lock state `h`:
every event is legal (`applyEv` succeeds), after every event at most two
node locks are held, every release of a node lock leaves either no node
lock held (an exit release) or exactly the next node's lock (an advance,
so the next lock was acquired before the current one was released), and
at the end of the trace no lock is held. -/
def hohCheck (h : Held) : List LockEv → Bool
  | [] => h.nodes.isEmpty && !h.listLock
  | e :: rest =>
      match applyEv h e with
      | none => false
      | some h2 =>
          decide (h2.nodes.length ≤ 2) &&
          (match e with
           | .relNode j => (h2.nodes == []) || (h2.nodes == [j + 1])
           | _ => true) &&
          hohCheck h2 rest

/-! ### Q5/Q6: hash table, ch29_all.c lines 141-149 -/

/-- `hash_t` (line 142): the bucket chains (each head first), the bucket
count `nb` (a C `int`), and the lock-granularity flag `per_bucket`. -/
structure HashT where
  buckets : List (List Int)
  nb : Int
  per_bucket : Bool
deriving DecidableEq

/-- `hash_init` (line 143): `nb` defaults to 101 when the requested count
is not positive (`nb>0?nb:101`); every bucket chain starts empty
(`calloc`). -/
def hash_init (nb : Int) (per : Bool) : HashT :=
  let nb2 : Int := if 0 < nb then nb else 101
  { nb := nb2, per_bucket := per, buckets := List.replicate nb2.toNat [] }

/-- `hfunc` (line 144): `(k % H->nb + H->nb) % H->nb` with C99 truncating
`%` (`Int.tmod`). -/
def hfunc (H : HashT) (k : Int) : Int :=
  Int.tmod (Int.tmod k H.nb + H.nb) H.nb

/-- `hash_insert` (lines 145-149).  `alloc_ok` models whether `malloc`
succeeds; on failure the function just returns, leaving the table
unchanged.  The `Unit` component is exactly what the caller receives:
the C function returns `void`.  Both lock modes (the two branches of
`if(!H->per_bucket)`) link the new node at the head of bucket
`hfunc(H,k)`. -/
def hash_insert (H : HashT) (k : Int) (alloc_ok : Bool) : HashT × Unit :=
  let b := (hfunc H k).toNat
  if alloc_ok = false then (H, ())
  else if H.per_bucket = false then
    ({ H with buckets := H.buckets.set b (k :: H.buckets.getD b []) }, ())
  else
    ({ H with buckets := H.buckets.set b (k :: H.buckets.getD b []) }, ())

/-- Insert each key in order, all allocations succeeding. -/
def hash_run (H : HashT) (keys : List Int) : HashT :=
  keys.foldl (fun acc k => (hash_insert acc k true).1) H

end Ch29

namespace TicketLock

/-! ### Ticket lock, mutex-nostarve.c lines 8-44

Each thread repeatedly performs one `ns_mutex_acquire`, a critical
section, and one `ns_mutex_release`.  Every atomic statement of the C
code is one transition; a schedule chooses which thread moves at each
step.  A `sem_wait` on a semaphore whose value is 0 blocks: the
transition is simply not enabled. -/

/-- `MAX_THREADS` (line 8): the size of the per-ticket slot array. -/
def maxThreads : Nat := 10

/-- Program position of one thread, one constructor per atomic statement
boundary of `ns_mutex_acquire` (lines 29-37) and `ns_mutex_release`
(lines 39-44):
* `idle`: outside the lock (before `acquire` / after `release`);
* `wantMutexA`: passed `Sem_wait(&m->room)`, before `Sem_wait(&m->mutex)`;
* `inMutexA`: holds `mutex`, before `my_ticket = m->ticket++`;
* `gotTicket t`: took ticket `t`, before `Sem_post(&m->mutex)`;
* `waitSlot t`: before `Sem_wait(&m->queue[t % MAX_THREADS])`;
* `gotSlot t`: passed the slot wait, before `Sem_post(&m->room)`;
* `holding t`: in the critical section;
* `relMutex t`: passed `Sem_wait(&m->mutex)` of `release`, before `m->turn++`;
* `relTurn t`: incremented `turn`, before `Sem_post(&m->queue[turn % MAX_THREADS])`;
* `relPosted t`: posted the slot, before `Sem_post(&m->mutex)`. -/
inductive TStat where
  | idle
  | wantMutexA
  | inMutexA
  | gotTicket (t : Nat)
  | waitSlot (t : Nat)
  | gotSlot (t : Nat)
  | holding (t : Nat)
  | relMutex (t : Nat)
  | relTurn (t : Nat)
  | relPosted (t : Nat)
deriving DecidableEq

/-- Global state of `ns_mutex_t` (lines 10-16) plus the position of every
thread and a ghost log: at each completed `Sem_wait(&m->queue[...])` (a
grant of the lock) the log records the granted ticket and the value of
`turn` at that moment.  The log does not influence any transition. -/
structure TLState where
  room : Nat
  mutex : Nat
  queue : List Nat
  ticket : Nat
  turn : Nat
  tstat : List TStat
  grants : List (Nat × Nat)
deriving DecidableEq

/-- `ns_mutex_init` (lines 18-27) for `n` threads: `room` and `mutex` at
1, all ten slot semaphores at 0 and then `Sem_post(&m->queue[0])`,
`ticket = turn = 0`, every thread idle. -/
def tlInit (n : Nat) : TLState :=
  { room := 1, mutex := 1,
    queue := (List.replicate maxThreads 0).set 0 1,
    ticket := 0, turn := 0,
    tstat := List.replicate n .idle, grants := [] }

/-- One transition: thread `tid` executes the atomic statement at its
current position, if it is enabled; `none` when `tid` is not a thread or
its next semaphore wait would block. -/
def tlStep (s : TLState) (tid : Nat) : Option TLState :=
  match s.tstat[tid]? with
  | none => none
  | some .idle =>
      if 0 < s.room then
        some { s with room := s.room - 1, tstat := s.tstat.set tid .wantMutexA }
      else none
  | some .wantMutexA =>
      if 0 < s.mutex then
        some { s with mutex := s.mutex - 1, tstat := s.tstat.set tid .inMutexA }
      else none
  | some .inMutexA =>
      some { s with ticket := s.ticket + 1,
                    tstat := s.tstat.set tid (.gotTicket s.ticket) }
  | some (.gotTicket t) =>
      some { s with mutex := s.mutex + 1, tstat := s.tstat.set tid (.waitSlot t) }
  | some (.waitSlot t) =>
      if 0 < s.queue.getD (t % maxThreads) 0 then
        some { s with
          queue := s.queue.set (t % maxThreads) (s.queue.getD (t % maxThreads) 0 - 1),
          tstat := s.tstat.set tid (.gotSlot t),
          grants := s.grants ++ [(t, s.turn)] }
      else none
  | some (.gotSlot t) =>
      some { s with room := s.room + 1, tstat := s.tstat.set tid (.holding t) }
  | some (.holding t) =>
      if 0 < s.mutex then
        some { s with mutex := s.mutex - 1, tstat := s.tstat.set tid (.relMutex t) }
      else none
  | some (.relMutex t) =>
      some { s with turn := s.turn + 1, tstat := s.tstat.set tid (.relTurn t) }
  | some (.relTurn t) =>
      some { s with
        queue := s.queue.set (s.turn % maxThreads)
                   (s.queue.getD (s.turn % maxThreads) 0 + 1),
        tstat := s.tstat.set tid (.relPosted t) }
  | some (.relPosted _) =>
      some { s with mutex := s.mutex + 1, tstat := s.tstat.set tid .idle }

/-- Run a schedule (a list of thread ids) from the initial state; `none`
when some scheduled step is not enabled, so a `some` result is exactly a
realizable interleaving. -/
def tlRun (n : Nat) (sched : List Nat) : Option TLState :=
  sched.foldlM tlStep (tlInit n)

/-- The grant log of a realizable interleaving. -/
def tlGrants (n : Nat) (sched : List Nat) : Option (List (Nat × Nat)) :=
  (tlRun n sched).map TLState.grants

/-- Statuses in which the thread holds the `room` semaphore. -/
def inRoom : TStat → Bool
  | .wantMutexA | .inMutexA | .gotTicket _ | .waitSlot _ | .gotSlot _ => true
  | _ => false

/-- Statuses in which the thread holds the `mutex` semaphore. -/
def inCS : TStat → Bool
  | .inMutexA | .gotTicket _ | .relMutex _ | .relTurn _ | .relPosted _ => true
  | _ => false

/-- The status between `m->turn++` and `Sem_post(&m->queue[turn % 10])`. -/
def pendingPost : TStat → Bool
  | .relTurn _ => true
  | _ => false

/-- Statuses of a thread that has been granted the lock but has not yet
executed `m->turn++` in its release. -/
def outstanding : TStat → Bool
  | .gotSlot _ | .holding _ | .relMutex _ => true
  | _ => false

/-- Number of naturals below `n` that are congruent to `sl` mod
`MAX_THREADS`: tickets below `n` mapped to slot `sl`. -/
def slotCount (n sl : Nat) : Nat :=
  (List.range n).countP (fun r => r % maxThreads == sl)

end TicketLock

/-! ## Helper lemmas on lists -/

namespace Ch29

theorem getD_set_self (l : List α) (i : Nat) (v d : α) (h : i < l.length) :
    (l.set i v).getD i d = v := by
  simp [List.getD_eq_getElem?_getD, List.getElem?_set_self h]

theorem getD_set_ne (l : List α) {i j : Nat} (h : i ≠ j) (v d : α) :
    (l.set i v).getD j d = l.getD j d := by
  simp [List.getD_eq_getElem?_getD, List.getElem?_set_ne h]

theorem getD_replicate_zero (n i : Nat) :
    (List.replicate n (0 : Int)).getD i 0 = 0 := by
  simp [List.getD_eq_getElem?_getD, List.getElem?_replicate]
  split <;> rfl

theorem sum_replicate_zero (n : Nat) : (List.replicate n (0 : Int)).sum = 0 := by
  induction n with
  | zero => rfl
  | succ m ih => simp [List.replicate, ih]

theorem sum_set_getD (l : List Int) (i : Nat) (v : Int) (h : i < l.length) :
    (l.set i v).sum + l.getD i 0 = l.sum + v := by
  induction l generalizing i with
  | nil => simp at h
  | cons x xs ih =>
    cases i with
    | zero => simp [List.set]; ring
    | succ n =>
      have hn : n < xs.length := by simpa using h
      have := ih n hn
      simp only [List.set, List.sum_cons, List.getD_cons_succ]
      omega

end Ch29

/-! ## The approximate counter: claims C1, C6, C7 -/

namespace Ch29

theorem approx_update_ncpu (c : ApproxT) (tid : Nat) :
    (approx_update c tid).ncpu = c.ncpu := by
  simp only [approx_update]; split <;> rfl

theorem approx_update_threshold (c : ApproxT) (tid : Nat) :
    (approx_update c tid).threshold = c.threshold := by
  simp only [approx_update]; split <;> rfl

theorem approx_update_length (c : ApproxT) (tid : Nat) :
    (approx_update c tid).locals.length = c.locals.length := by
  simp only [approx_update]; split <;> simp

theorem approx_update_total (c : ApproxT) (tid : Nat)
    (hlen : c.locals.length = c.ncpu) (hpos : 0 < c.ncpu) :
    (approx_update c tid).global + (approx_update c tid).locals.sum
      = c.global + c.locals.sum + 1 := by
  have hcpu : tid % c.ncpu < c.locals.length := by
    rw [hlen]; exact Nat.mod_lt _ hpos
  have h0 := sum_set_getD c.locals (tid % c.ncpu) 0 hcpu
  have h1 := sum_set_getD c.locals (tid % c.ncpu)
      (c.locals.getD (tid % c.ncpu) 0 + 1) hcpu
  simp only [approx_update]
  simp only [List.getD_eq_getElem?_getD] at h0 h1
  split <;> (simp [List.getD_eq_getElem?_getD]; omega)

theorem approx_run_cons (c : ApproxT) (t : Nat) (ts : List Nat) :
    approx_run c (t :: ts) = approx_run (approx_update c t) ts := rfl

theorem approx_run_ncpu (tids : List Nat) (c : ApproxT) :
    (approx_run c tids).ncpu = c.ncpu := by
  induction tids generalizing c with
  | nil => rfl
  | cons t ts ih =>
    rw [approx_run_cons, ih, approx_update_ncpu]

theorem approx_run_length (tids : List Nat) (c : ApproxT) :
    (approx_run c tids).locals.length = c.locals.length := by
  induction tids generalizing c with
  | nil => rfl
  | cons t ts ih =>
    rw [approx_run_cons, ih, approx_update_length]

theorem approx_run_total (tids : List Nat) (c : ApproxT)
    (hlen : c.locals.length = c.ncpu) (hpos : 0 < c.ncpu) :
    (approx_run c tids).global + (approx_run c tids).locals.sum
      = c.global + c.locals.sum + tids.length := by
  induction tids generalizing c with
  | nil => simp [approx_run]
  | cons t ts ih =>
    rw [approx_run_cons]
    have h2 := ih (approx_update c t)
      (by rw [approx_update_length, approx_update_ncpu, hlen])
      (by rw [approx_update_ncpu]; exact hpos)
    have h1 := approx_update_total c t hlen hpos
    simp only [List.length_cons]
    push_cast
    push_cast at h2
    omega

/-- C1: starting from a freshly initialized counter, after any finite
sequence of increments the global accumulator plus the sum of all
per-shard local accumulators equals the number of increments performed;
consequently, after draining every shard into the global accumulator,
`read_total()` (`approx_get`) equals the number of increments.  (With `N`
workers of `K` increments each the sequence has length `N*K`.) -/
theorem C1_counter_residue_invariant (th ncpu : Int) (tids : List Nat) :
    (approx_run (approx_init th ncpu) tids).global
        + (approx_run (approx_init th ncpu) tids).locals.sum
      = (tids.length : Int)
    ∧ approx_get (approx_drain (approx_run (approx_init th ncpu) tids))
      = (tids.length : Int) := by
  have hlen : (approx_init th ncpu).locals.length = (approx_init th ncpu).ncpu := by
    simp [approx_init]
  have hpos : 0 < (approx_init th ncpu).ncpu := by
    simp only [approx_init]
    split <;> omega
  have h := approx_run_total tids (approx_init th ncpu) hlen hpos
  have hinit : (approx_init th ncpu).global = 0 := rfl
  have hsum : (approx_init th ncpu).locals.sum = 0 := sum_replicate_zero _
  refine ⟨by omega, ?_⟩
  simp only [approx_get, approx_drain]
  omega

theorem shardCount_cons (t : Nat) (ts : List Nat) (ncpu i : Nat) :
    shardCount (t :: ts) ncpu i
      = shardCount ts ncpu i + if t % ncpu = i then 1 else 0 := by
  simp [shardCount, List.countP_cons]

/-- If no shard's pending total can reach the threshold, no flush ever
happens: the global accumulator is unchanged and each local accumulator
just counts its own increments. -/
theorem approx_run_no_flush (tids : List Nat) (c : ApproxT)
    (hlen : c.locals.length = c.ncpu) (hpos : 0 < c.ncpu)
    (h : ∀ i ∈ List.range c.ncpu,
        c.locals.getD i 0 + (shardCount tids c.ncpu i : Int) < c.threshold) :
    (approx_run c tids).global = c.global
    ∧ ∀ i ∈ List.range c.ncpu,
        (approx_run c tids).locals.getD i 0
          = c.locals.getD i 0 + (shardCount tids c.ncpu i : Int) := by
  induction tids generalizing c with
  | nil =>
    refine ⟨rfl, fun i hi => ?_⟩
    simp [approx_run, shardCount]
  | cons t ts ih =>
    have hcpu : t % c.ncpu < c.ncpu := Nat.mod_lt _ hpos
    have hmem : t % c.ncpu ∈ List.range c.ncpu := List.mem_range.mpr hcpu
    have hsc : shardCount (t :: ts) c.ncpu (t % c.ncpu)
        = shardCount ts c.ncpu (t % c.ncpu) + 1 := by
      rw [shardCount_cons, if_pos rfl]
    have hv : ¬ (c.threshold ≤ c.locals.getD (t % c.ncpu) 0 + 1) := by
      have h1 := h (t % c.ncpu) hmem
      rw [hsc] at h1
      push_cast at h1
      omega
    have hcl : t % c.ncpu < c.locals.length := by rw [hlen]; exact hcpu
    set l2 := c.locals.set (t % c.ncpu) (c.locals.getD (t % c.ncpu) 0 + 1) with hl2
    have hstep : approx_update c t = { c with locals := l2 } := by
      simp only [approx_update]
      rw [if_neg hv]
    rw [approx_run_cons, hstep]
    have hlen2 : ({ c with locals := l2 } : ApproxT).locals.length
        = ({ c with locals := l2 } : ApproxT).ncpu := by
      simp [hl2, hlen]
    have hside : ∀ i ∈ List.range ({ c with locals := l2 } : ApproxT).ncpu,
        ({ c with locals := l2 } : ApproxT).locals.getD i 0
            + (shardCount ts ({ c with locals := l2 } : ApproxT).ncpu i : Int)
          < ({ c with locals := l2 } : ApproxT).threshold := by
      intro i hi
      simp only at hi ⊢
      by_cases hic : i = t % c.ncpu
      · subst hic
        rw [hl2, getD_set_self _ _ _ _ hcl]
        have h1 := h _ hi
        rw [hsc] at h1
        push_cast at h1 ⊢
        omega
      · rw [hl2, getD_set_ne _ (fun hh => hic hh.symm)]
        have h1 := h i hi
        rw [shardCount_cons, if_neg (fun hh => hic hh.symm)] at h1
        simpa using h1
    obtain ⟨hg, hl⟩ := ih { c with locals := l2 } hlen2 hpos hside
    refine ⟨hg, fun i hi => ?_⟩
    rw [hl i hi]
    simp only [hl2]
    by_cases hic : i = t % c.ncpu
    · subst hic
      rw [getD_set_self _ _ _ _ hcl, hsc]
      push_cast
      ring
    · rw [getD_set_ne _ (fun hh => hic hh.symm),
        shardCount_cons, if_neg (fun hh => hic hh.symm)]
      simp

/-- C7: `read_total()` (`approx_get`) returns exactly the global
accumulator's value and never any un-flushed per-shard residue; in
particular, after a non-empty sequence of increments none of which brings
any shard to the flush threshold, it returns a value strictly less than
the number of increments performed. -/
theorem C7_read_total_is_global_only (th ncpu : Int) (tids : List Nat)
    (hne : tids ≠ [])
    (h : ∀ i ∈ List.range (approx_init th ncpu).ncpu,
        (shardCount tids (approx_init th ncpu).ncpu i : Int) < th) :
    approx_get (approx_run (approx_init th ncpu) tids)
        = (approx_run (approx_init th ncpu) tids).global
    ∧ approx_get (approx_run (approx_init th ncpu) tids)
        < (tids.length : Int) := by
  have hlen : (approx_init th ncpu).locals.length = (approx_init th ncpu).ncpu := by
    simp [approx_init]
  have hpos : 0 < (approx_init th ncpu).ncpu := by
    simp only [approx_init]; split <;> omega
  have hside : ∀ i ∈ List.range (approx_init th ncpu).ncpu,
      (approx_init th ncpu).locals.getD i 0
          + (shardCount tids (approx_init th ncpu).ncpu i : Int)
        < (approx_init th ncpu).threshold := by
    intro i hi
    have h1 := h i hi
    have h2 : (approx_init th ncpu).locals
        = List.replicate (approx_init th ncpu).ncpu 0 := rfl
    have h3 : (approx_init th ncpu).threshold = th := rfl
    rw [h2, getD_replicate_zero, h3]
    omega
  obtain ⟨hg, -⟩ := approx_run_no_flush tids (approx_init th ncpu) hlen hpos hside
  have hg0 : (approx_init th ncpu).global = 0 := rfl
  have hlenpos : 0 < tids.length := List.length_pos.mpr hne
  refine ⟨rfl, ?_⟩
  rw [approx_get]
  omega

/-- C7 witness: threshold 5, 2 shards, increments `[0, 1, 0]`; each shard
count (2 and 1) is below the threshold, and `read_total` gives `0 < 3`. -/
theorem C7_witness :
    approx_get (approx_run (approx_init 5 2) [0, 1, 0])
        = (approx_run (approx_init 5 2) [0, 1, 0]).global
    ∧ approx_get (approx_run (approx_init 5 2) [0, 1, 0])
        < (([0, 1, 0] : List Nat).length : Int) :=
  C7_read_total_is_global_only 5 2 [0, 1, 0] (by decide) (by decide)

/-- C6 counterexample: for shard id `-1` with shard count 4, the C index
computation `tid % c->ncpu` yields `-1`, which does not lie in `[0, 4)`:
the claim that the computed shard index always lies within
`[0, shard_count)` for every integer shard id is false. -/
theorem C6_counterexample :
    cpuIndex (-1) 4 = -1
    ∧ ¬ (0 ≤ cpuIndex (-1) 4 ∧ cpuIndex (-1) 4 < 4) := by
  decide

/-- C6 amended: for every NON-NEGATIVE shard id and positive shard count,
the computed index is the shard id reduced modulo the shard count and
lies within `[0, shard_count)`; for negative shard ids the C `%` is
truncating, so the index can be negative and the array access is out of
bounds. -/
theorem C6_amended_shard_index_range (tid ncpu : Int)
    (h0 : 0 ≤ tid) (h1 : 0 < ncpu) :
    cpuIndex tid ncpu = tid % ncpu
    ∧ 0 ≤ cpuIndex tid ncpu ∧ cpuIndex tid ncpu < ncpu := by
  have he : cpuIndex tid ncpu = tid % ncpu :=
    Int.tmod_eq_emod h0 (le_of_lt h1)
  refine ⟨he, ?_, ?_⟩
  · rw [cpuIndex] at he ⊢
    rw [he]
    exact Int.emod_nonneg _ (ne_of_gt h1)
  · rw [cpuIndex] at he ⊢
    rw [he]
    exact Int.emod_lt_of_pos _ h1

/-- C6 amended, witness at shard id 7 and shard count 4. -/
theorem C6_amended_witness :
    cpuIndex 7 4 = 7 % 4 ∧ 0 ≤ cpuIndex 7 4 ∧ cpuIndex 7 4 < 4 :=
  C6_amended_shard_index_range 7 4 (by decide) (by decide)

/-- C10: non-positive size arguments are replaced by fixed positive
defaults — bucket count 101 for the hash table and shard count 4 for the
counter — and every other field is initialized exactly as for a positive
size: the resulting structures are equal to the ones built with the
default size passed explicitly. -/
theorem C10_constructor_defaults (nb : Int) (per : Bool) (th ncpu : Int)
    (hnb : nb ≤ 0) (hncpu : ncpu ≤ 0) :
    hash_init nb per = hash_init 101 per
    ∧ (hash_init nb per).nb = 101
    ∧ (hash_init nb per).buckets = List.replicate 101 []
    ∧ approx_init th ncpu = approx_init th 4
    ∧ (approx_init th ncpu).ncpu = 4
    ∧ (approx_init th ncpu).locals = List.replicate 4 0
    ∧ (approx_init th ncpu).global = 0
    ∧ (approx_init th ncpu).threshold = th := by
  have h1 : ¬ (0 < nb) := by omega
  have h2 : ¬ (0 < ncpu) := by omega
  refine ⟨?_, ?_, ?_, ?_, ?_, ?_, rfl, rfl⟩ <;>
    simp [hash_init, approx_init, h1, h2]

/-- C10 witness: bucket count `-7` and shard count `-2`. -/
theorem C10_witness :
    hash_init (-7) true = hash_init 101 true
    ∧ (hash_init (-7) true).nb = 101
    ∧ (hash_init (-7) true).buckets = List.replicate 101 []
    ∧ approx_init 5 (-2) = approx_init 5 4
    ∧ (approx_init 5 (-2)).ncpu = 4
    ∧ (approx_init 5 (-2)).locals = List.replicate 4 0
    ∧ (approx_init 5 (-2)).global = 0
    ∧ (approx_init 5 (-2)).threshold = 5 :=
  C10_constructor_defaults (-7) true 5 (-2) (by decide) (by decide)


/-! ## The linked list: claims C3, C9 -/

theorem list_insert_fst (L : ListT) (k : Int) :
    (list_insert L k true).1 = { L with elems := k :: L.elems } := by
  simp only [list_insert]
  rw [if_neg (by simp : ¬ (true = false))]
  split <;> rfl

theorem mkList_go (keys : List Int) (L : ListT) :
    keys.foldl (fun acc k => (list_insert acc k true).1) L
      = { L with elems := keys.reverse ++ L.elems } := by
  induction keys generalizing L with
  | nil => rfl
  | cons k ks ih =>
    rw [List.foldl_cons, list_insert_fst, ih]
    simp

theorem mkList_elems (hoh : Bool) (keys : List Int) :
    (mkList hoh keys).elems = keys.reverse ∧ (mkList hoh keys).hoh = hoh := by
  rw [mkList, mkList_go]
  simp [list_init]

theorem lookup_scan_eq (l : List Int) (key : Int) :
    lookup_scan l key = if key ∈ l then 0 else -1 := by
  induction l with
  | nil => simp [lookup_scan]
  | cons x xs ih =>
    by_cases h : x = key
    · subst h
      simp [lookup_scan]
    · have hk : ¬ key = x := fun hh => h hh.symm
      simp only [lookup_scan]
      rw [if_neg h, ih]
      have hmem : key ∈ x :: xs ↔ key ∈ xs := by
        rw [List.mem_cons]
        constructor
        · rintro (rfl | hmm)
          · exact absurd rfl h
          · exact hmm
        · exact Or.inr
      simp only [hmem]

theorem hohLoopEv_rv (key : Int) (l : List Int) (i : Nat) :
    (hohLoopEv key i l).2 = if key ∈ l then 0 else -1 := by
  induction l generalizing i with
  | nil => simp [hohLoopEv]
  | cons x xs ih =>
    cases xs with
    | nil =>
      by_cases h : x = key
      · subst h
        simp [hohLoopEv]
      · have hk : ¬ key = x := fun hh => h hh.symm
        simp [hohLoopEv, h, hk]
    | cons y ys =>
      by_cases h : x = key
      · subst h
        simp [hohLoopEv]
      · have hmem : key ∈ x :: y :: ys ↔ key ∈ y :: ys := by
          rw [List.mem_cons]
          constructor
          · rintro (rfl | hmm)
            · exact absurd rfl h
            · exact hmm
          · exact Or.inr
        rw [hohLoopEv, if_neg h]
        show (hohLoopEv key (i + 1) (y :: ys)).2
          = if key ∈ x :: y :: ys then 0 else -1
        rw [ih (i + 1)]
        simp only [hmem]

theorem list_lookup_hoh_rv (l : List Int) (key : Int) :
    (list_lookup_hoh_ev l key).2 = if key ∈ l then 0 else -1 := by
  cases l with
  | nil => simp [list_lookup_hoh_ev]
  | cons x xs =>
    rw [list_lookup_hoh_ev]
    exact hohLoopEv_rv key (x :: xs) 0

theorem list_lookup_eq (L : ListT) (key : Int) :
    list_lookup L key = if key ∈ L.elems then 0 else -1 := by
  rw [list_lookup]
  split
  · exact lookup_scan_eq _ _
  · exact list_lookup_hoh_rv _ _

/-- C3: in either lock mode, inserting a key and then looking it up with
no intervening mutation returns found (`0`), and looking up a key never
inserted returns not-found (`-1`).  (The C functions encode found as
return value `0` and not-found as `-1`.) -/
theorem C3_list_round_trip (hoh : Bool) (keys : List Int) (k : Int) :
    list_lookup (list_insert (mkList hoh keys) k true).1 k = 0
    ∧ (k ∉ keys → list_lookup (mkList hoh keys) k = -1) := by
  constructor
  · rw [list_lookup_eq, list_insert_fst]
    simp
  · intro hk
    rw [list_lookup_eq, if_neg]
    rw [(mkList_elems hoh keys).1]
    simpa using hk

/-- C3 witness: insert 5 into the hand-over-hand list built from `[1, 2]`
and find it; 5 was never inserted into that list, and its lookup fails. -/
theorem C3_witness :
    list_lookup (list_insert (mkList true [1, 2]) 5 true).1 5 = 0
    ∧ list_lookup (mkList true [1, 2]) 5 = -1 :=
  ⟨(C3_list_round_trip true [1, 2] 5).1,
   (C3_list_round_trip true [1, 2] 5).2 (by decide)⟩

theorem hohCheck_loop (key : Int) (l : List Int) (i : Nat) (hne : l ≠ []) :
    hohCheck { listLock := false, nodes := [i] } (hohLoopEv key i l).1 = true := by
  induction l generalizing i with
  | nil => exact absurd rfl hne
  | cons x xs ih =>
    cases xs with
    | nil =>
      simp [hohLoopEv, hohCheck, applyEv]
    | cons y ys =>
      by_cases h : x = key
      · rw [hohLoopEv, if_pos h]
        simp [hohCheck, applyEv]
      · rw [hohLoopEv, if_neg h]
        show hohCheck _
          (.acqNode (i + 1) :: .relNode i :: (hohLoopEv key (i + 1) (y :: ys)).1)
          = true
        have h1 : applyEv { listLock := false, nodes := [i] } (.acqNode (i + 1))
            = some { listLock := false, nodes := [i + 1, i] } := by
          simp [applyEv, Nat.succ_ne_self]
        have h2 : applyEv { listLock := false, nodes := [i + 1, i] } (.relNode i)
            = some { listLock := false, nodes := [i + 1] } := by
          simp [applyEv, List.erase_cons, Nat.succ_ne_self]
        have hih := ih (i + 1) (by simp)
        simp only [hohCheck, h1, h2, hih]
        simp

/-- C9: every hand-over-hand `list_lookup` lock trace is well-formed:
each acquire is of a lock not already held and each release of a held
one; after every event at most two node locks are held; every node-lock
release either ends the traversal with no node lock held (an exit,
including the early return when the key is found) or leaves exactly the
next node's lock held (so the next node's lock is always acquired before
the current node's is released, and the node left behind is released on
advancing); and at the end of every path every acquired lock has been
released. -/
theorem C9_hoh_lock_discipline (keys : List Int) (key : Int) :
    hohCheck { listLock := false, nodes := [] }
      (list_lookup_hoh_ev keys key).1 = true := by
  cases keys with
  | nil => rfl
  | cons x xs =>
    rw [list_lookup_hoh_ev]
    show hohCheck _
      (.acqList :: .acqNode 0 :: .relList :: (hohLoopEv key 0 (x :: xs)).1)
      = true
    have h1 : applyEv { listLock := false, nodes := [] } .acqList
        = some { listLock := true, nodes := [] } := rfl
    have h2 : applyEv { listLock := true, nodes := [] } (.acqNode 0)
        = some { listLock := true, nodes := [0] } := rfl
    have h3 : applyEv { listLock := true, nodes := [0] } .relList
        = some { listLock := false, nodes := [0] } := rfl
    have hloop := hohCheck_loop key (x :: xs) 0 (by simp)
    simp only [hohCheck, h1, h2, h3, hloop]
    simp

/-! ## The hash table: claims C4, C5, C8 -/

theorem neg_lt_tmod (a : Int) {b : Int} (hb : 0 < b) : -b < Int.tmod a b := by
  cases a with
  | ofNat m =>
    have hc : Int.ofNat m = (m : Int) := rfl
    have h1 : 0 ≤ Int.tmod (Int.ofNat m) b :=
      Int.tmod_nonneg b (by rw [hc]; omega)
    omega
  | negSucc m =>
    cases b with
    | ofNat n =>
      have hc : Int.ofNat n = (n : Int) := rfl
      have hn : 0 < n := by rw [hc] at hb; omega
      have hr : Int.tmod (Int.negSucc m) (Int.ofNat n)
          = -(((m + 1) % n : Nat) : Int) := rfl
      rw [hr, hc]
      have h2 : (m + 1) % n < n := Nat.mod_lt _ hn
      omega
    | negSucc n =>
      exact absurd hb (lt_asymm (Int.negSucc_lt_zero n))

theorem hfunc_eq_emod (H : HashT) (k : Int) (h1 : 1 ≤ H.nb) :
    hfunc H k = k % H.nb := by
  have hb : (0 : Int) < H.nb := by omega
  have hlow : -H.nb < Int.tmod k H.nb := neg_lt_tmod k hb
  have hnn : 0 ≤ Int.tmod k H.nb + H.nb := by omega
  rw [hfunc, Int.tmod_eq_emod hnn (by omega)]
  rw [Int.tmod_def k H.nb]
  have h2 : k - H.nb * k.tdiv H.nb + H.nb = k + H.nb * (1 - k.tdiv H.nb) := by
    ring
  rw [h2, Int.add_mul_emod_self_left]

theorem hash_insert_fst (H : HashT) (k : Int) :
    (hash_insert H k true).1.nb = H.nb
    ∧ (hash_insert H k true).1.per_bucket = H.per_bucket
    ∧ (hash_insert H k true).1.buckets
        = H.buckets.set (hfunc H k).toNat
            (k :: H.buckets.getD (hfunc H k).toNat []) := by
  simp only [hash_insert]
  rw [if_neg (by simp : ¬ (true = false))]
  split <;> exact ⟨rfl, rfl, rfl⟩

/-- C8: for every table with bucket count `nb ≥ 1` whose bucket array has
`nb` entries, and every integer key `k` (negative included), the bucket
index chosen by `hash_insert` is `((k % nb) + nb) % nb`, which equals the
non-negative normalization `k mod nb` (`Int.emod`), lies in `[0, nb)`,
and the new node is linked at the head of exactly that bucket's chain,
all other buckets being untouched. -/
theorem C8_bucket_index_normalization (H : HashT) (k : Int)
    (h1 : 1 ≤ H.nb) (hwf : H.buckets.length = H.nb.toNat) :
    hfunc H k = ((k % H.nb) + H.nb) % H.nb
    ∧ hfunc H k = k % H.nb
    ∧ 0 ≤ hfunc H k ∧ hfunc H k < H.nb
    ∧ (hash_insert H k true).1.buckets.getD (hfunc H k).toNat []
        = k :: H.buckets.getD (hfunc H k).toNat []
    ∧ ∀ j, j ≠ (hfunc H k).toNat →
        (hash_insert H k true).1.buckets.getD j [] = H.buckets.getD j [] := by
  have hb : (0 : Int) < H.nb := by omega
  have he : hfunc H k = k % H.nb := hfunc_eq_emod H k h1
  have hnn : 0 ≤ hfunc H k := by
    rw [he]; exact Int.emod_nonneg _ (ne_of_gt hb)
  have hlt : hfunc H k < H.nb := by
    rw [he]; exact Int.emod_lt_of_pos _ hb
  have hidx : (hfunc H k).toNat < H.buckets.length := by
    rw [hwf]; omega
  have h3 : (k % H.nb + H.nb) % H.nb = k % H.nb % H.nb := by
    simp
  refine ⟨?_, he, hnn, hlt, ?_, ?_⟩
  · rw [h3, Int.emod_emod_of_dvd k dvd_rfl, he]
  · rw [(hash_insert_fst H k).2.2]
    exact getD_set_self _ _ _ _ hidx
  · intro j hj
    rw [(hash_insert_fst H k).2.2]
    exact getD_set_ne _ (fun hh => hj hh.symm) _ _

/-- C8 witness: table of 5 buckets, key `-7`; the chosen bucket is 3 and
bucket 0 is untouched. -/
theorem C8_witness :
    hfunc (hash_init 5 true) (-7)
        = (((-7) % (hash_init 5 true).nb) + (hash_init 5 true).nb)
            % (hash_init 5 true).nb
    ∧ hfunc (hash_init 5 true) (-7) = (-7) % (hash_init 5 true).nb
    ∧ 0 ≤ hfunc (hash_init 5 true) (-7)
    ∧ hfunc (hash_init 5 true) (-7) < (hash_init 5 true).nb
    ∧ (hash_insert (hash_init 5 true) (-7) true).1.buckets.getD
          (hfunc (hash_init 5 true) (-7)).toNat []
        = (-7) :: (hash_init 5 true).buckets.getD
          (hfunc (hash_init 5 true) (-7)).toNat []
    ∧ (hash_insert (hash_init 5 true) (-7) true).1.buckets.getD 0 []
        = (hash_init 5 true).buckets.getD 0 [] := by
  have h := C8_bucket_index_normalization (hash_init 5 true) (-7)
    (by decide) (by decide)
  exact ⟨h.1, h.2.1, h.2.2.1, h.2.2.2.1, h.2.2.2.2.1,
    h.2.2.2.2.2 0 (by decide)⟩

/-- C5 counterexample: `hash_insert` is `void` in C — the `Unit` second
component is everything a caller receives.  On the concrete table
`hash_init 3 false` and key 5, the caller-visible result of a failed
allocation equals that of a successful one, even though the two calls
leave the table in different states: the hash-table insert does NOT
signal an allocation-failure result to the caller, refuting the claim
that every insert does. -/
theorem C5_counterexample :
    (hash_insert (hash_init 3 false) 5 false).2
        = (hash_insert (hash_init 3 false) 5 true).2
    ∧ (hash_insert (hash_init 3 false) 5 false).1
        ≠ (hash_insert (hash_init 3 false) 5 true).1 :=
  ⟨rfl, by decide⟩

/-- C5 amended: on allocation failure every insert aborts leaving the
structure unchanged (no partial link, no new node); `list_insert` signals
the failure by returning `-1`, while `hash_insert` returns `void` and
signals nothing. -/
theorem C5_amended_alloc_failure (L : ListT) (k : Int) (H : HashT) (k2 : Int) :
    list_insert L k false = (L, -1) ∧ (hash_insert H k2 false).1 = H := by
  constructor
  · simp [list_insert]
  · simp [hash_insert]

theorem getD_replicate {α} (n i : Nat) (d : α) :
    (List.replicate n d).getD i d = d := by
  simp [List.getD_eq_getElem?_getD, List.getElem?_replicate]
  split <;> rfl

theorem hfunc_congr (H1 H2 : HashT) (k : Int) (h : H1.nb = H2.nb) :
    hfunc H1 k = hfunc H2 k := by
  rw [hfunc, hfunc, h]

theorem hash_run_cons (H : HashT) (k : Int) (ks : List Int) :
    hash_run H (k :: ks) = hash_run (hash_insert H k true).1 ks := rfl

theorem hash_run_mode (keys : List Int) (H1 H2 : HashT)
    (hnb : H1.nb = H2.nb) (hb : H1.buckets = H2.buckets) :
    (hash_run H1 keys).buckets = (hash_run H2 keys).buckets := by
  induction keys generalizing H1 H2 with
  | nil => exact hb
  | cons k ks ih =>
    rw [hash_run_cons, hash_run_cons]
    apply ih
    · rw [(hash_insert_fst H1 k).1, (hash_insert_fst H2 k).1, hnb]
    · rw [(hash_insert_fst H1 k).2.2, (hash_insert_fst H2 k).2.2,
        hfunc_congr H1 H2 k hnb, hb]

theorem hash_run_getD (keys : List Int) (H : HashT)
    (hwf : H.buckets.length = H.nb.toNat) (h1 : 1 ≤ H.nb) :
    ∀ i, i < H.buckets.length →
      (hash_run H keys).buckets.getD i []
        = (keys.filter (fun k => (hfunc H k).toNat == i)).reverse
            ++ H.buckets.getD i [] := by
  induction keys generalizing H with
  | nil =>
    intro i hi
    simp [hash_run]
  | cons k ks ih =>
    intro i hi
    rw [hash_run_cons]
    have hnb2 : (hash_insert H k true).1.nb = H.nb := (hash_insert_fst H k).1
    have hbk2 := (hash_insert_fst H k).2.2
    have hlen2 : (hash_insert H k true).1.buckets.length
        = (hash_insert H k true).1.nb.toNat := by
      rw [hbk2, List.length_set, hwf, hnb2]
    have hfc : ∀ k2, hfunc (hash_insert H k true).1 k2 = hfunc H k2 :=
      fun k2 => hfunc_congr _ _ _ (by rw [hnb2])
    have hi2 : i < (hash_insert H k true).1.buckets.length := by
      rw [hbk2, List.length_set]
      exact hi
    have hrec := ih (hash_insert H k true).1 hlen2 (by rw [hnb2]; exact h1) i hi2
    rw [hrec]
    simp only [hfc, hbk2]
    have hidx : (hfunc H k).toNat < H.buckets.length := by
      have hlt : hfunc H k < H.nb := by
        rw [hfunc_eq_emod H k h1]
        exact Int.emod_lt_of_pos _ (by omega)
      have hge : 0 ≤ hfunc H k := by
        rw [hfunc_eq_emod H k h1]
        exact Int.emod_nonneg _ (by omega)
      rw [hwf]
      omega
    by_cases hit : (hfunc H k).toNat = i
    · rw [hit, getD_set_self _ _ _ _ (hit ▸ hidx)]
      rw [List.filter_cons, if_pos (by simp [hit])]
      simp
    · rw [getD_set_ne _ hit]
      rw [List.filter_cons, if_neg (by simp [hit])]

/-- C4: inserting any key sequence into a per-bucket-mode table and into
a global-lock-mode table with the same bucket count yields identical
final bucket contents; each bucket `i` holds exactly the keys that hash
to `i` via `hfunc` (`k mod nb` normalized non-negative), newest first.
The mode flag changes only which lock is taken, never the structure. -/
theorem C4_lock_granularity_equivalence (nb : Int) (keys : List Int) :
    (hash_run (hash_init nb true) keys).buckets
      = (hash_run (hash_init nb false) keys).buckets
    ∧ ∀ i, i < (hash_init nb false).buckets.length →
        (hash_run (hash_init nb false) keys).buckets.getD i []
          = (keys.filter
              (fun k => (hfunc (hash_init nb false) k).toNat == i)).reverse := by
  have hwf : (hash_init nb false).buckets.length
      = (hash_init nb false).nb.toNat := by
    simp [hash_init]
  have h1 : 1 ≤ (hash_init nb false).nb := by
    simp only [hash_init]
    split <;> omega
  constructor
  · exact hash_run_mode keys (hash_init nb true) (hash_init nb false) rfl rfl
  · intro i hi
    rw [hash_run_getD keys (hash_init nb false) hwf h1 i hi]
    have hrep : (hash_init nb false).buckets.getD i [] = [] := by
      rw [hash_init]
      exact getD_replicate _ _ _
    rw [hrep]
    simp

/-- C4 witness: 3 buckets, keys `[1, 2, 5, -4]`; both modes agree and
bucket 2 holds the keys hashing to 2, newest first. -/
theorem C4_witness :
    (hash_run (hash_init 3 true) [1, 2, 5, -4]).buckets
      = (hash_run (hash_init 3 false) [1, 2, 5, -4]).buckets
    ∧ (hash_run (hash_init 3 false) [1, 2, 5, -4]).buckets.getD 2 []
        = (([1, 2, 5, -4] : List Int).filter
            (fun k => (hfunc (hash_init 3 false) k).toNat == 2)).reverse :=
  ⟨(C4_lock_granularity_equivalence 3 [1, 2, 5, -4]).1,
   (C4_lock_granularity_equivalence 3 [1, 2, 5, -4]).2 2 (by decide)⟩

end Ch29

/-! ## The ticket lock: claim C2 -/

namespace TicketLock

theorem countP_set (l : List α) (p : α → Bool) (i : Nat) (a b : α)
    (h : l[i]? = some a) :
    (l.set i b).countP p + (if p a then 1 else 0)
      = l.countP p + (if p b then 1 else 0) := by
  induction l generalizing i with
  | nil => simp at h
  | cons x xs ih =>
    cases i with
    | zero =>
      simp at h
      subst h
      simp [List.countP_cons]
      omega
    | succ n =>
      simp at h
      have := ih n h
      simp [List.countP_cons]
      omega

theorem two_le_countP (l : List α) (p : α → Bool) {i j : Nat} {a b : α}
    (hij : i ≠ j) (ha : l[i]? = some a) (hb : l[j]? = some b)
    (hpa : p a = true) (hpb : p b = true) : 2 ≤ l.countP p := by
  induction l generalizing i j with
  | nil => simp at ha
  | cons x xs ih =>
    cases i with
    | zero =>
      cases j with
      | zero => exact absurd rfl hij
      | succ m =>
        simp at ha hb
        subst ha
        have h1 : 0 < xs.countP p :=
          List.countP_pos_iff.mpr ⟨b, List.getElem?_mem hb, hpb⟩
        rw [List.countP_cons]
        simp [hpa]
        exact ⟨b, List.getElem?_mem hb, hpb⟩
    | succ n =>
      cases j with
      | zero =>
        simp at ha hb
        subst hb
        have h1 : 0 < xs.countP p :=
          List.countP_pos_iff.mpr ⟨a, List.getElem?_mem ha, hpa⟩
        rw [List.countP_cons]
        simp [hpb]
        exact ⟨a, List.getElem?_mem ha, hpa⟩
      | succ m =>
        simp at ha hb
        have h2 : n ≠ m := fun hh => hij (by rw [hh])
        have := ih h2 ha hb
        rw [List.countP_cons]
        omega

theorem one_le_countP (p : α → Bool) {l : List α} {i : Nat} {a : α}
    (ha : l[i]? = some a) (hpa : p a = true) : 1 ≤ l.countP p :=
  List.countP_pos_iff.mpr ⟨a, List.getElem?_mem ha, hpa⟩

theorem unique_of_countP_le_one {l : List α} {p : α → Bool}
    (h1 : l.countP p ≤ 1) {i j : Nat} {a b : α}
    (ha : l[i]? = some a) (hb : l[j]? = some b)
    (hpa : p a = true) (hpb : p b = true) : i = j := by
  by_contra hij
  exact absurd (two_le_countP l p hij ha hb hpa hpb) (by omega)

theorem set_getElem? {l : List α} {tid : Nat} {b : α} {i : Nat} {st : α}
    (h : (l.set tid b)[i]? = some st) :
    (i = tid ∧ st = b) ∨ (i ≠ tid ∧ l[i]? = some st) := by
  by_cases hi : i = tid
  · subst hi
    have hlt : i < l.length := by
      have := List.getElem?_eq_some_iff.mp h
      obtain ⟨hh, -⟩ := this
      simpa using hh
    rw [List.getElem?_set_self hlt] at h
    cases h
    exact Or.inl ⟨rfl, rfl⟩
  · rw [List.getElem?_set_ne (fun hh => hi hh.symm)] at h
    exact Or.inr ⟨hi, h⟩

theorem slotCount_mono {n m : Nat} (h : n ≤ m) (sl : Nat) :
    slotCount n sl ≤ slotCount m sl :=
  List.Sublist.countP_le _ (List.range_sublist.mpr h)

theorem slotCount_succ (n sl : Nat) :
    slotCount (n + 1) sl
      = slotCount n sl + (if n % maxThreads = sl then 1 else 0) := by
  rw [slotCount, slotCount, List.range_succ, List.countP_append]
  simp [List.countP_cons]

theorem countP_replicate_false (n : Nat) (a : α) (p : α → Bool)
    (h : p a = false) : (List.replicate n a).countP p = 0 := by
  induction n with
  | zero => rfl
  | succ m ih => simp [List.replicate, List.countP_cons, h, ih]

/-- The inductive invariant of the ticket-lock system.  `room_inv`: the
room semaphore admits at most one thread between `Sem_wait(&m->room)` and
`Sem_post(&m->room)`.  `mutex_inv`: `mutex` protects its critical
sections.  `turn_inv`: `turn` counts releases, which lag grants by the
number of granted-but-not-yet-released holders.  `r_pre`/`r_tick`/`r_got`:
the unique thread inside the room carries the most recent ticket, and
every earlier ticket has been granted.  `queue_inv`: token accounting for
every slot semaphore — tokens present plus tokens consumed by grants
equal the initial token plus tokens posted by releases (a pending post of
a thread between `turn++` and `Sem_post` counts separately).  `log_inv`:
the ghost log records grants of tickets `0, 1, 2, ...`, each at the
moment `turn` equals that ticket. -/
structure TLInv (s : TLState) : Prop where
  qlen : s.queue.length = maxThreads
  room_inv : s.room + s.tstat.countP inRoom = 1
  mutex_inv : s.mutex + s.tstat.countP inCS = 1
  turn_inv : s.turn + s.tstat.countP outstanding = s.grants.length
  r_empty : s.tstat.countP inRoom = 0 → s.grants.length = s.ticket
  r_pre : ∀ i : Nat,
      (s.tstat[i]? = some .wantMutexA ∨ s.tstat[i]? = some .inMutexA) →
      s.grants.length = s.ticket
  r_tick : ∀ (i t : Nat),
      (s.tstat[i]? = some (.gotTicket t) ∨ s.tstat[i]? = some (.waitSlot t)) →
      s.grants.length = t ∧ s.ticket = t + 1
  r_got : ∀ (i t : Nat), s.tstat[i]? = some (.gotSlot t) →
      s.grants.length = t + 1 ∧ s.ticket = t + 1
  queue_inv : ∀ sl : Nat,
      s.queue.getD sl 0 + slotCount s.grants.length sl
        + (if sl = s.turn % maxThreads then s.tstat.countP pendingPost else 0)
      = slotCount (s.turn + 1) sl
  log_inv : s.grants = (List.range s.grants.length).map (fun i => (i, i))

theorem tlInit_inv (n : Nat) : TLInv (tlInit n) := by
  refine {
    qlen := by simp [tlInit]
    room_inv := by
      simp [tlInit, countP_replicate_false n TStat.idle inRoom rfl]
    mutex_inv := by
      simp [tlInit, countP_replicate_false n TStat.idle inCS rfl]
    turn_inv := by
      simp [tlInit, countP_replicate_false n TStat.idle outstanding rfl]
    r_empty := by intro _; rfl
    r_pre := ?_
    r_tick := ?_
    r_got := ?_
    queue_inv := ?_
    log_inv := rfl }
  · intro i h
    rcases h with h | h <;>
      (simp only [tlInit, List.getElem?_replicate] at h;
       split at h <;> simp_all)
  · intro i t h
    rcases h with h | h <;>
      (simp only [tlInit, List.getElem?_replicate] at h;
       split at h <;> simp_all)
  · intro i t h
    simp only [tlInit, List.getElem?_replicate] at h
    split at h <;> simp_all
  · intro sl
    have hpend : (List.replicate n TStat.idle).countP pendingPost = 0 :=
      countP_replicate_false n _ _ rfl
    have hq : ((List.replicate maxThreads 0).set 0 1).getD sl 0
        = if sl = 0 then 1 else 0 := by
      by_cases h0 : sl = 0
      · subst h0
        rw [Ch29.getD_set_self]
        · rfl
        · simp [maxThreads]
      · rw [if_neg h0, Ch29.getD_set_ne _ (fun hh => h0 hh.symm)]
        by_cases hlt : sl < maxThreads
        · simp [List.getD_eq_getElem?_getD, List.getElem?_replicate, hlt]
        · simp [List.getD_eq_getElem?_getD, List.getElem?_replicate, hlt]
    have hs1 : slotCount (0 + 1) sl = if sl = 0 then 1 else 0 := by
      rw [slotCount_succ]
      have : slotCount 0 sl = 0 := rfl
      rw [this]
      simp [maxThreads]
      by_cases h0 : sl = 0 <;> simp [h0, eq_comm]
    have hs0 : slotCount 0 sl = 0 := rfl
    simp only [tlInit, hq, hpend]
    rw [List.length_nil, hs0, hs1]
    simp

theorem inv_step_idle {s : TLState} {tid : Nat}
    (hst : s.tstat[tid]? = some .idle) (hg : 0 < s.room) (hinv : TLInv s) :
    TLInv { s with room := s.room - 1,
                   tstat := s.tstat.set tid .wantMutexA } := by
  obtain ⟨qlen, room_inv, mutex_inv, turn_inv, r_empty, r_pre, r_tick,
    r_got, queue_inv, log_inv⟩ := hinv
  have hcR := countP_set s.tstat inRoom tid _ .wantMutexA hst
  have hcC := countP_set s.tstat inCS tid _ .wantMutexA hst
  have hcO := countP_set s.tstat outstanding tid _ .wantMutexA hst
  have hcP := countP_set s.tstat pendingPost tid _ .wantMutexA hst
  simp [inRoom, inCS, outstanding, pendingPost] at hcR hcC hcO hcP
  have hroom0 : s.tstat.countP inRoom = 0 := by omega
  have hgt : s.grants.length = s.ticket := r_empty hroom0
  refine {
    qlen := qlen
    room_inv := by
      show s.room - 1 + (s.tstat.set tid .wantMutexA).countP inRoom = 1
      omega
    mutex_inv := by
      show s.mutex + (s.tstat.set tid .wantMutexA).countP inCS = 1
      omega
    turn_inv := by
      show s.turn + (s.tstat.set tid .wantMutexA).countP outstanding
        = s.grants.length
      omega
    r_empty := fun _ => hgt
    r_pre := fun i h => hgt
    r_tick := ?_
    r_got := ?_
    queue_inv := by
      intro sl
      show s.queue.getD sl 0 + slotCount s.grants.length sl
          + (if sl = s.turn % maxThreads
             then (s.tstat.set tid .wantMutexA).countP pendingPost else 0)
        = slotCount (s.turn + 1) sl
      have hq := queue_inv sl
      have hpp : (s.tstat.set tid .wantMutexA).countP pendingPost
          = s.tstat.countP pendingPost := by omega
      rw [hpp]
      exact hq
    log_inv := log_inv }
  · intro i t h
    rcases h with h | h <;>
      rcases set_getElem? h with ⟨-, hb⟩ | ⟨-, hold⟩ <;>
      first
      | exact absurd hb (by simp)
      | exact absurd (one_le_countP inRoom hold rfl) (by omega)
  · intro i t h
    rcases set_getElem? h with ⟨-, hb⟩ | ⟨-, hold⟩
    · exact absurd hb (by simp)
    · exact absurd (one_le_countP inRoom hold rfl) (by omega)

theorem inv_step_wantMutexA {s : TLState} {tid : Nat}
    (hst : s.tstat[tid]? = some .wantMutexA) (hg : 0 < s.mutex)
    (hinv : TLInv s) :
    TLInv { s with mutex := s.mutex - 1,
                   tstat := s.tstat.set tid .inMutexA } := by
  obtain ⟨qlen, room_inv, mutex_inv, turn_inv, r_empty, r_pre, r_tick,
    r_got, queue_inv, log_inv⟩ := hinv
  have hcR := countP_set s.tstat inRoom tid _ .inMutexA hst
  have hcC := countP_set s.tstat inCS tid _ .inMutexA hst
  have hcO := countP_set s.tstat outstanding tid _ .inMutexA hst
  have hcP := countP_set s.tstat pendingPost tid _ .inMutexA hst
  simp [inRoom, inCS, outstanding, pendingPost] at hcR hcC hcO hcP
  have hone : 1 ≤ s.tstat.countP inRoom := one_le_countP inRoom hst rfl
  refine {
    qlen := qlen
    room_inv := by
      show s.room + (s.tstat.set tid .inMutexA).countP inRoom = 1
      omega
    mutex_inv := by
      show s.mutex - 1 + (s.tstat.set tid .inMutexA).countP inCS = 1
      omega
    turn_inv := by
      show s.turn + (s.tstat.set tid .inMutexA).countP outstanding
        = s.grants.length
      omega
    r_empty := by
      intro h
      dsimp only at h
      omega
    r_pre := fun i _ => r_pre tid (Or.inl hst)
    r_tick := ?_
    r_got := ?_
    queue_inv := by
      intro sl
      show s.queue.getD sl 0 + slotCount s.grants.length sl
          + (if sl = s.turn % maxThreads
             then (s.tstat.set tid .inMutexA).countP pendingPost else 0)
        = slotCount (s.turn + 1) sl
      have hpp : (s.tstat.set tid .inMutexA).countP pendingPost
          = s.tstat.countP pendingPost := by omega
      rw [hpp]
      exact queue_inv sl
    log_inv := log_inv }
  · intro i t h
    rcases h with h | h <;> rcases set_getElem? h with ⟨-, hb⟩ | ⟨-, hold⟩ <;>
      first
      | exact absurd hb (by simp)
      | exact r_tick i t (Or.inl hold)
      | exact r_tick i t (Or.inr hold)
  · intro i t h
    rcases set_getElem? h with ⟨-, hb⟩ | ⟨-, hold⟩
    · exact absurd hb (by simp)
    · exact r_got i t hold

theorem inv_step_inMutexA {s : TLState} {tid : Nat}
    (hst : s.tstat[tid]? = some .inMutexA) (hinv : TLInv s) :
    TLInv { s with ticket := s.ticket + 1,
                   tstat := s.tstat.set tid (.gotTicket s.ticket) } := by
  obtain ⟨qlen, room_inv, mutex_inv, turn_inv, r_empty, r_pre, r_tick,
    r_got, queue_inv, log_inv⟩ := hinv
  have hcR := countP_set s.tstat inRoom tid _ (.gotTicket s.ticket) hst
  have hcC := countP_set s.tstat inCS tid _ (.gotTicket s.ticket) hst
  have hcO := countP_set s.tstat outstanding tid _ (.gotTicket s.ticket) hst
  have hcP := countP_set s.tstat pendingPost tid _ (.gotTicket s.ticket) hst
  simp [inRoom, inCS, outstanding, pendingPost] at hcR hcC hcO hcP
  have hone : 1 ≤ s.tstat.countP inRoom := one_le_countP inRoom hst rfl
  have hgt : s.grants.length = s.ticket := r_pre tid (Or.inr hst)
  refine {
    qlen := qlen
    room_inv := by
      show s.room + (s.tstat.set tid (.gotTicket s.ticket)).countP inRoom = 1
      omega
    mutex_inv := by
      show s.mutex + (s.tstat.set tid (.gotTicket s.ticket)).countP inCS = 1
      omega
    turn_inv := by
      show s.turn + (s.tstat.set tid (.gotTicket s.ticket)).countP outstanding
        = s.grants.length
      omega
    r_empty := by
      intro h
      dsimp only at h
      omega
    r_pre := ?_
    r_tick := ?_
    r_got := ?_
    queue_inv := by
      intro sl
      show s.queue.getD sl 0 + slotCount s.grants.length sl
          + (if sl = s.turn % maxThreads
             then (s.tstat.set tid (.gotTicket s.ticket)).countP pendingPost
             else 0)
        = slotCount (s.turn + 1) sl
      have hpp : (s.tstat.set tid (.gotTicket s.ticket)).countP pendingPost
          = s.tstat.countP pendingPost := by omega
      rw [hpp]
      exact queue_inv sl
    log_inv := log_inv }
  · intro i h
    rcases h with h | h <;> rcases set_getElem? h with ⟨-, hb⟩ | ⟨hii, hold⟩ <;>
      first
      | exact absurd hb (by simp)
      | exact absurd (unique_of_countP_le_one
          (show s.tstat.countP inRoom ≤ 1 by omega) hold hst rfl rfl) hii
  · intro i t h
    rcases h with h | h <;> rcases set_getElem? h with ⟨hii, hb⟩ | ⟨hii, hold⟩
    · injection hb with ht
      subst ht
      exact ⟨hgt, rfl⟩
    · exact absurd (unique_of_countP_le_one
        (show s.tstat.countP inRoom ≤ 1 by omega) hold hst rfl rfl) hii
    · exact absurd hb (by simp)
    · exact absurd (unique_of_countP_le_one
        (show s.tstat.countP inRoom ≤ 1 by omega) hold hst rfl rfl) hii
  · intro i t h
    rcases set_getElem? h with ⟨hii, hb⟩ | ⟨hii, hold⟩
    · exact absurd hb (by simp)
    · exact absurd (unique_of_countP_le_one
        (show s.tstat.countP inRoom ≤ 1 by omega) hold hst rfl rfl) hii

theorem inv_step_gotTicket {s : TLState} {tid t0 : Nat}
    (hst : s.tstat[tid]? = some (.gotTicket t0)) (hinv : TLInv s) :
    TLInv { s with mutex := s.mutex + 1,
                   tstat := s.tstat.set tid (.waitSlot t0) } := by
  obtain ⟨qlen, room_inv, mutex_inv, turn_inv, r_empty, r_pre, r_tick,
    r_got, queue_inv, log_inv⟩ := hinv
  have hcR := countP_set s.tstat inRoom tid _ (.waitSlot t0) hst
  have hcC := countP_set s.tstat inCS tid _ (.waitSlot t0) hst
  have hcO := countP_set s.tstat outstanding tid _ (.waitSlot t0) hst
  have hcP := countP_set s.tstat pendingPost tid _ (.waitSlot t0) hst
  simp [inRoom, inCS, outstanding, pendingPost] at hcR hcC hcO hcP
  have honeR : 1 ≤ s.tstat.countP inRoom := one_le_countP inRoom hst rfl
  have honeC : 1 ≤ s.tstat.countP inCS := one_le_countP inCS hst rfl
  refine {
    qlen := qlen
    room_inv := by
      show s.room + (s.tstat.set tid (.waitSlot t0)).countP inRoom = 1
      omega
    mutex_inv := by
      show s.mutex + 1 + (s.tstat.set tid (.waitSlot t0)).countP inCS = 1
      omega
    turn_inv := by
      show s.turn + (s.tstat.set tid (.waitSlot t0)).countP outstanding
        = s.grants.length
      omega
    r_empty := by
      intro h
      dsimp only at h
      omega
    r_pre := fun i h => by
      rcases h with h | h <;> rcases set_getElem? h with ⟨-, hb⟩ | ⟨-, hold⟩ <;>
        first
        | exact absurd hb (by simp)
        | exact r_pre i (Or.inl hold)
        | exact r_pre i (Or.inr hold)
    r_tick := ?_
    r_got := ?_
    queue_inv := by
      intro sl
      show s.queue.getD sl 0 + slotCount s.grants.length sl
          + (if sl = s.turn % maxThreads
             then (s.tstat.set tid (.waitSlot t0)).countP pendingPost else 0)
        = slotCount (s.turn + 1) sl
      have hpp : (s.tstat.set tid (.waitSlot t0)).countP pendingPost
          = s.tstat.countP pendingPost := by omega
      rw [hpp]
      exact queue_inv sl
    log_inv := log_inv }
  · intro i t h
    rcases h with h | h <;> rcases set_getElem? h with ⟨hii, hb⟩ | ⟨hii, hold⟩
    · exact absurd hb (by simp)
    · exact r_tick i t (Or.inl hold)
    · injection hb with ht
      obtain ⟨h1, h2⟩ := r_tick tid t0 (Or.inl hst)
      show s.grants.length = t ∧ s.ticket = t + 1
      exact ⟨by omega, by omega⟩
    · exact r_tick i t (Or.inr hold)
  · intro i t h
    rcases set_getElem? h with ⟨hii, hb⟩ | ⟨hii, hold⟩
    · exact absurd hb (by simp)
    · exact r_got i t hold

theorem inv_step_waitSlot {s : TLState} {tid t0 : Nat}
    (hst : s.tstat[tid]? = some (.waitSlot t0))
    (hg : 0 < s.queue.getD (t0 % maxThreads) 0) (hinv : TLInv s) :
    TLInv { s with
      queue := s.queue.set (t0 % maxThreads)
                 (s.queue.getD (t0 % maxThreads) 0 - 1),
      tstat := s.tstat.set tid (.gotSlot t0),
      grants := s.grants ++ [(t0, s.turn)] } := by
  obtain ⟨qlen, room_inv, mutex_inv, turn_inv, r_empty, r_pre, r_tick,
    r_got, queue_inv, log_inv⟩ := hinv
  have hcR := countP_set s.tstat inRoom tid _ (.gotSlot t0) hst
  have hcC := countP_set s.tstat inCS tid _ (.gotSlot t0) hst
  have hcO := countP_set s.tstat outstanding tid _ (.gotSlot t0) hst
  have hcP := countP_set s.tstat pendingPost tid _ (.gotSlot t0) hst
  simp [inRoom, inCS, outstanding, pendingPost] at hcR hcC hcO hcP
  have hone : 1 ≤ s.tstat.countP inRoom := one_le_countP inRoom hst rfl
  obtain ⟨hgt, htk⟩ := r_tick tid t0 (Or.inr hst)
  have hidx : t0 % maxThreads < s.queue.length := by
    rw [qlen]
    exact Nat.mod_lt _ (by norm_num [maxThreads])
  have hturn : s.turn = t0 := by
    rcases Nat.lt_or_ge s.turn t0 with hlt | hge
    · exfalso
      have hq := queue_inv (t0 % maxThreads)
      have hmono := slotCount_mono
        (show s.turn + 1 ≤ s.grants.length by omega) (t0 % maxThreads)
      omega
    · omega
  refine {
    qlen := by
      show (s.queue.set (t0 % maxThreads)
        (s.queue.getD (t0 % maxThreads) 0 - 1)).length = maxThreads
      rw [List.length_set]
      exact qlen
    room_inv := by
      show s.room + (s.tstat.set tid (.gotSlot t0)).countP inRoom = 1
      omega
    mutex_inv := by
      show s.mutex + (s.tstat.set tid (.gotSlot t0)).countP inCS = 1
      omega
    turn_inv := by
      show s.turn + (s.tstat.set tid (.gotSlot t0)).countP outstanding
        = (s.grants ++ [(t0, s.turn)]).length
      rw [List.length_append, List.length_singleton]
      omega
    r_empty := by
      intro h
      dsimp only at h
      omega
    r_pre := ?_
    r_tick := ?_
    r_got := ?_
    queue_inv := ?_
    log_inv := ?_ }
  · intro i h
    rcases h with h | h <;> rcases set_getElem? h with ⟨-, hb⟩ | ⟨hii, hold⟩ <;>
      first
      | exact absurd hb (by simp)
      | exact absurd (unique_of_countP_le_one
          (show s.tstat.countP inRoom ≤ 1 by omega) hold hst rfl rfl) hii
  · intro i t h
    rcases h with h | h <;> rcases set_getElem? h with ⟨-, hb⟩ | ⟨hii, hold⟩ <;>
      first
      | exact absurd hb (by simp)
      | exact absurd (unique_of_countP_le_one
          (show s.tstat.countP inRoom ≤ 1 by omega) hold hst rfl rfl) hii
  · intro i t h
    rcases set_getElem? h with ⟨-, hb⟩ | ⟨hii, hold⟩
    · injection hb with ht
      show (s.grants ++ [(t0, s.turn)]).length = t + 1 ∧ s.ticket = t + 1
      rw [List.length_append, List.length_singleton]
      exact ⟨by omega, by omega⟩
    · exact absurd (unique_of_countP_le_one
        (show s.tstat.countP inRoom ≤ 1 by omega) hold hst rfl rfl) hii
  · intro sl
    show (s.queue.set (t0 % maxThreads)
            (s.queue.getD (t0 % maxThreads) 0 - 1)).getD sl 0
        + slotCount (s.grants ++ [(t0, s.turn)]).length sl
        + (if sl = s.turn % maxThreads
           then (s.tstat.set tid (.gotSlot t0)).countP pendingPost else 0)
      = slotCount (s.turn + 1) sl
    rw [List.length_append, List.length_singleton, slotCount_succ, hcP]
    have hq := queue_inv sl
    have hgm : s.grants.length % maxThreads = t0 % maxThreads := by
      rw [hgt]
    by_cases hsl : sl = t0 % maxThreads
    · subst hsl
      rw [Ch29.getD_set_self _ _ _ _ hidx, if_pos hgm]
      omega
    · rw [Ch29.getD_set_ne _ (fun hh => hsl hh.symm),
        if_neg (fun hh => hsl (by omega))]
      omega
  · show s.grants ++ [(t0, s.turn)]
      = (List.range (s.grants ++ [(t0, s.turn)]).length).map (fun i => (i, i))
    rw [List.length_append, List.length_singleton, List.range_succ,
      List.map_append, ← log_inv]
    have h1 : t0 = s.grants.length := hgt.symm
    have h2 : s.turn = s.grants.length := by omega
    rw [← h1]
    simp [h1, h2, hturn]

theorem inv_step_gotSlot {s : TLState} {tid t0 : Nat}
    (hst : s.tstat[tid]? = some (.gotSlot t0)) (hinv : TLInv s) :
    TLInv { s with room := s.room + 1,
                   tstat := s.tstat.set tid (.holding t0) } := by
  obtain ⟨qlen, room_inv, mutex_inv, turn_inv, r_empty, r_pre, r_tick,
    r_got, queue_inv, log_inv⟩ := hinv
  have hcR := countP_set s.tstat inRoom tid _ (.holding t0) hst
  have hcC := countP_set s.tstat inCS tid _ (.holding t0) hst
  have hcO := countP_set s.tstat outstanding tid _ (.holding t0) hst
  have hcP := countP_set s.tstat pendingPost tid _ (.holding t0) hst
  simp [inRoom, inCS, outstanding, pendingPost] at hcR hcC hcO hcP
  have hone : 1 ≤ s.tstat.countP inRoom := one_le_countP inRoom hst rfl
  obtain ⟨hgt, htk⟩ := r_got tid t0 hst
  refine {
    qlen := qlen
    room_inv := by
      show s.room + 1 + (s.tstat.set tid (.holding t0)).countP inRoom = 1
      omega
    mutex_inv := by
      show s.mutex + (s.tstat.set tid (.holding t0)).countP inCS = 1
      omega
    turn_inv := by
      show s.turn + (s.tstat.set tid (.holding t0)).countP outstanding
        = s.grants.length
      omega
    r_empty := fun _ => by
      show s.grants.length = s.ticket
      omega
    r_pre := fun i _ => by
      show s.grants.length = s.ticket
      omega
    r_tick := ?_
    r_got := ?_
    queue_inv := by
      intro sl
      show s.queue.getD sl 0 + slotCount s.grants.length sl
          + (if sl = s.turn % maxThreads
             then (s.tstat.set tid (.holding t0)).countP pendingPost else 0)
        = slotCount (s.turn + 1) sl
      rw [show (s.tstat.set tid (.holding t0)).countP pendingPost
          = s.tstat.countP pendingPost from by omega]
      exact queue_inv sl
    log_inv := log_inv }
  · intro i t h
    rcases h with h | h <;> rcases set_getElem? h with ⟨-, hb⟩ | ⟨hii, hold⟩ <;>
      first
      | exact absurd hb (by simp)
      | exact absurd (unique_of_countP_le_one
          (show s.tstat.countP inRoom ≤ 1 by omega) hold hst rfl rfl) hii
  · intro i t h
    rcases set_getElem? h with ⟨-, hb⟩ | ⟨hii, hold⟩
    · exact absurd hb (by simp)
    · exact absurd (unique_of_countP_le_one
        (show s.tstat.countP inRoom ≤ 1 by omega) hold hst rfl rfl) hii

theorem inv_step_holding {s : TLState} {tid t0 : Nat}
    (hst : s.tstat[tid]? = some (.holding t0)) (hg : 0 < s.mutex)
    (hinv : TLInv s) :
    TLInv { s with mutex := s.mutex - 1,
                   tstat := s.tstat.set tid (.relMutex t0) } := by
  obtain ⟨qlen, room_inv, mutex_inv, turn_inv, r_empty, r_pre, r_tick,
    r_got, queue_inv, log_inv⟩ := hinv
  have hcR := countP_set s.tstat inRoom tid _ (.relMutex t0) hst
  have hcC := countP_set s.tstat inCS tid _ (.relMutex t0) hst
  have hcO := countP_set s.tstat outstanding tid _ (.relMutex t0) hst
  have hcP := countP_set s.tstat pendingPost tid _ (.relMutex t0) hst
  simp [inRoom, inCS, outstanding, pendingPost] at hcR hcC hcO hcP
  refine {
    qlen := qlen
    room_inv := by
      show s.room + (s.tstat.set tid (.relMutex t0)).countP inRoom = 1
      omega
    mutex_inv := by
      show s.mutex - 1 + (s.tstat.set tid (.relMutex t0)).countP inCS = 1
      omega
    turn_inv := by
      show s.turn + (s.tstat.set tid (.relMutex t0)).countP outstanding
        = s.grants.length
      omega
    r_empty := by
      intro h
      dsimp only at h
      exact r_empty (by omega)
    r_pre := ?_
    r_tick := ?_
    r_got := ?_
    queue_inv := by
      intro sl
      show s.queue.getD sl 0 + slotCount s.grants.length sl
          + (if sl = s.turn % maxThreads
             then (s.tstat.set tid (.relMutex t0)).countP pendingPost else 0)
        = slotCount (s.turn + 1) sl
      rw [show (s.tstat.set tid (.relMutex t0)).countP pendingPost
          = s.tstat.countP pendingPost from by omega]
      exact queue_inv sl
    log_inv := log_inv }
  · intro i h
    rcases h with h | h <;> rcases set_getElem? h with ⟨-, hb⟩ | ⟨-, hold⟩ <;>
      first
      | exact absurd hb (by simp)
      | exact r_pre i (Or.inl hold)
      | exact r_pre i (Or.inr hold)
  · intro i t h
    rcases h with h | h <;> rcases set_getElem? h with ⟨-, hb⟩ | ⟨-, hold⟩ <;>
      first
      | exact absurd hb (by simp)
      | exact r_tick i t (Or.inl hold)
      | exact r_tick i t (Or.inr hold)
  · intro i t h
    rcases set_getElem? h with ⟨-, hb⟩ | ⟨-, hold⟩
    · exact absurd hb (by simp)
    · exact r_got i t hold

theorem inv_step_relMutex {s : TLState} {tid t0 : Nat}
    (hst : s.tstat[tid]? = some (.relMutex t0)) (hinv : TLInv s) :
    TLInv { s with turn := s.turn + 1,
                   tstat := s.tstat.set tid (.relTurn t0) } := by
  obtain ⟨qlen, room_inv, mutex_inv, turn_inv, r_empty, r_pre, r_tick,
    r_got, queue_inv, log_inv⟩ := hinv
  have hcR := countP_set s.tstat inRoom tid _ (.relTurn t0) hst
  have hcC := countP_set s.tstat inCS tid _ (.relTurn t0) hst
  have hcO := countP_set s.tstat outstanding tid _ (.relTurn t0) hst
  have hcP := countP_set s.tstat pendingPost tid _ (.relTurn t0) hst
  simp [inRoom, inCS, outstanding, pendingPost] at hcR hcC hcO hcP
  have honeO : 1 ≤ s.tstat.countP outstanding :=
    one_le_countP outstanding hst rfl
  have honeC : 1 ≤ s.tstat.countP inCS := one_le_countP inCS hst rfl
  have hpp0 : s.tstat.countP pendingPost = 0 := by
    by_contra hne
    have hpos : 0 < s.tstat.countP pendingPost := Nat.pos_of_ne_zero hne
    obtain ⟨b, hmem, hb⟩ := List.countP_pos_iff.mp hpos
    obtain ⟨j, hj⟩ := List.mem_iff_getElem?.mp hmem
    have hbCS : inCS b = true := by
      cases b <;> simp [pendingPost, inCS] at hb ⊢
    have hji : j = tid := unique_of_countP_le_one
      (show s.tstat.countP inCS ≤ 1 by omega) hj hst hbCS rfl
    rw [hji] at hj
    injection hst.symm.trans hj with hbe
    rw [← hbe] at hb
    simp [pendingPost] at hb
  refine {
    qlen := qlen
    room_inv := by
      show s.room + (s.tstat.set tid (.relTurn t0)).countP inRoom = 1
      omega
    mutex_inv := by
      show s.mutex + (s.tstat.set tid (.relTurn t0)).countP inCS = 1
      omega
    turn_inv := by
      show s.turn + 1 + (s.tstat.set tid (.relTurn t0)).countP outstanding
        = s.grants.length
      omega
    r_empty := by
      intro h
      dsimp only at h
      exact r_empty (by omega)
    r_pre := ?_
    r_tick := ?_
    r_got := ?_
    queue_inv := by
      intro sl
      show s.queue.getD sl 0 + slotCount s.grants.length sl
          + (if sl = (s.turn + 1) % maxThreads
             then (s.tstat.set tid (.relTurn t0)).countP pendingPost else 0)
        = slotCount (s.turn + 1 + 1) sl
      rw [show (s.tstat.set tid (.relTurn t0)).countP pendingPost = 1
          from by omega]
      rw [slotCount_succ (s.turn + 1) sl]
      have hq := queue_inv sl
      rw [hpp0] at hq
      simp only [ite_self] at hq
      by_cases hsl : sl = (s.turn + 1) % maxThreads
      · rw [if_pos hsl, if_pos hsl.symm]
        omega
      · rw [if_neg hsl, if_neg (fun hh => hsl hh.symm)]
        omega
    log_inv := log_inv }
  · intro i h
    rcases h with h | h <;> rcases set_getElem? h with ⟨-, hb⟩ | ⟨-, hold⟩ <;>
      first
      | exact absurd hb (by simp)
      | exact r_pre i (Or.inl hold)
      | exact r_pre i (Or.inr hold)
  · intro i t h
    rcases h with h | h <;> rcases set_getElem? h with ⟨-, hb⟩ | ⟨-, hold⟩ <;>
      first
      | exact absurd hb (by simp)
      | exact r_tick i t (Or.inl hold)
      | exact r_tick i t (Or.inr hold)
  · intro i t h
    rcases set_getElem? h with ⟨-, hb⟩ | ⟨-, hold⟩
    · exact absurd hb (by simp)
    · exact r_got i t hold

theorem inv_step_relTurn {s : TLState} {tid t0 : Nat}
    (hst : s.tstat[tid]? = some (.relTurn t0)) (hinv : TLInv s) :
    TLInv { s with
      queue := s.queue.set (s.turn % maxThreads)
                 (s.queue.getD (s.turn % maxThreads) 0 + 1),
      tstat := s.tstat.set tid (.relPosted t0) } := by
  obtain ⟨qlen, room_inv, mutex_inv, turn_inv, r_empty, r_pre, r_tick,
    r_got, queue_inv, log_inv⟩ := hinv
  have hcR := countP_set s.tstat inRoom tid _ (.relPosted t0) hst
  have hcC := countP_set s.tstat inCS tid _ (.relPosted t0) hst
  have hcO := countP_set s.tstat outstanding tid _ (.relPosted t0) hst
  have hcP := countP_set s.tstat pendingPost tid _ (.relPosted t0) hst
  simp [inRoom, inCS, outstanding, pendingPost] at hcR hcC hcO hcP
  have honeP : 1 ≤ s.tstat.countP pendingPost :=
    one_le_countP pendingPost hst rfl
  have hmono : s.tstat.countP pendingPost ≤ s.tstat.countP inCS :=
    List.countP_mono_left (fun x _ hx => by
      cases x <;> simp [pendingPost, inCS] at hx ⊢)
  have hpp1 : s.tstat.countP pendingPost = 1 := by omega
  have hidx : s.turn % maxThreads < s.queue.length := by
    rw [qlen]
    exact Nat.mod_lt _ (by norm_num [maxThreads])
  refine {
    qlen := by
      show (s.queue.set (s.turn % maxThreads)
        (s.queue.getD (s.turn % maxThreads) 0 + 1)).length = maxThreads
      rw [List.length_set]
      exact qlen
    room_inv := by
      show s.room + (s.tstat.set tid (.relPosted t0)).countP inRoom = 1
      omega
    mutex_inv := by
      show s.mutex + (s.tstat.set tid (.relPosted t0)).countP inCS = 1
      omega
    turn_inv := by
      show s.turn + (s.tstat.set tid (.relPosted t0)).countP outstanding
        = s.grants.length
      omega
    r_empty := by
      intro h
      dsimp only at h
      exact r_empty (by omega)
    r_pre := ?_
    r_tick := ?_
    r_got := ?_
    queue_inv := by
      intro sl
      show (s.queue.set (s.turn % maxThreads)
              (s.queue.getD (s.turn % maxThreads) 0 + 1)).getD sl 0
          + slotCount s.grants.length sl
          + (if sl = s.turn % maxThreads
             then (s.tstat.set tid (.relPosted t0)).countP pendingPost else 0)
        = slotCount (s.turn + 1) sl
      rw [show (s.tstat.set tid (.relPosted t0)).countP pendingPost = 0
          from by omega]
      have hq := queue_inv sl
      by_cases hsl : sl = s.turn % maxThreads
      · subst hsl
        rw [if_pos rfl] at hq
        rw [if_pos rfl, Ch29.getD_set_self _ _ _ _ hidx]
        omega
      · rw [if_neg hsl] at hq
        rw [if_neg hsl, Ch29.getD_set_ne _ (fun hh => hsl hh.symm)]
        omega
    log_inv := log_inv }
  · intro i h
    rcases h with h | h <;> rcases set_getElem? h with ⟨-, hb⟩ | ⟨-, hold⟩ <;>
      first
      | exact absurd hb (by simp)
      | exact r_pre i (Or.inl hold)
      | exact r_pre i (Or.inr hold)
  · intro i t h
    rcases h with h | h <;> rcases set_getElem? h with ⟨-, hb⟩ | ⟨-, hold⟩ <;>
      first
      | exact absurd hb (by simp)
      | exact r_tick i t (Or.inl hold)
      | exact r_tick i t (Or.inr hold)
  · intro i t h
    rcases set_getElem? h with ⟨-, hb⟩ | ⟨-, hold⟩
    · exact absurd hb (by simp)
    · exact r_got i t hold

theorem inv_step_relPosted {s : TLState} {tid t0 : Nat}
    (hst : s.tstat[tid]? = some (.relPosted t0)) (hinv : TLInv s) :
    TLInv { s with mutex := s.mutex + 1,
                   tstat := s.tstat.set tid .idle } := by
  obtain ⟨qlen, room_inv, mutex_inv, turn_inv, r_empty, r_pre, r_tick,
    r_got, queue_inv, log_inv⟩ := hinv
  have hcR := countP_set s.tstat inRoom tid _ .idle hst
  have hcC := countP_set s.tstat inCS tid _ .idle hst
  have hcO := countP_set s.tstat outstanding tid _ .idle hst
  have hcP := countP_set s.tstat pendingPost tid _ .idle hst
  simp [inRoom, inCS, outstanding, pendingPost] at hcR hcC hcO hcP
  have honeC : 1 ≤ s.tstat.countP inCS := one_le_countP inCS hst rfl
  refine {
    qlen := qlen
    room_inv := by
      show s.room + (s.tstat.set tid .idle).countP inRoom = 1
      omega
    mutex_inv := by
      show s.mutex + 1 + (s.tstat.set tid .idle).countP inCS = 1
      omega
    turn_inv := by
      show s.turn + (s.tstat.set tid .idle).countP outstanding
        = s.grants.length
      omega
    r_empty := by
      intro h
      dsimp only at h
      exact r_empty (by omega)
    r_pre := ?_
    r_tick := ?_
    r_got := ?_
    queue_inv := by
      intro sl
      show s.queue.getD sl 0 + slotCount s.grants.length sl
          + (if sl = s.turn % maxThreads
             then (s.tstat.set tid .idle).countP pendingPost else 0)
        = slotCount (s.turn + 1) sl
      rw [show (s.tstat.set tid .idle).countP pendingPost
          = s.tstat.countP pendingPost from by omega]
      exact queue_inv sl
    log_inv := log_inv }
  · intro i h
    rcases h with h | h <;> rcases set_getElem? h with ⟨-, hb⟩ | ⟨-, hold⟩ <;>
      first
      | exact absurd hb (by simp)
      | exact r_pre i (Or.inl hold)
      | exact r_pre i (Or.inr hold)
  · intro i t h
    rcases h with h | h <;> rcases set_getElem? h with ⟨-, hb⟩ | ⟨-, hold⟩ <;>
      first
      | exact absurd hb (by simp)
      | exact r_tick i t (Or.inl hold)
      | exact r_tick i t (Or.inr hold)
  · intro i t h
    rcases set_getElem? h with ⟨-, hb⟩ | ⟨-, hold⟩
    · exact absurd hb (by simp)
    · exact r_got i t hold

theorem tlStep_inv {s s' : TLState} {tid : Nat} (hinv : TLInv s)
    (hstep : tlStep s tid = some s') : TLInv s' := by
  rw [tlStep.eq_def] at hstep
  cases hst : s.tstat[tid]? with
  | none =>
    rw [hst] at hstep
    exact Option.noConfusion hstep
  | some st =>
    rw [hst] at hstep
    cases st with
    | idle =>
      dsimp only at hstep
      split at hstep
      · cases hstep
        exact inv_step_idle hst (by assumption) hinv
      · exact Option.noConfusion hstep
    | wantMutexA =>
      dsimp only at hstep
      split at hstep
      · cases hstep
        exact inv_step_wantMutexA hst (by assumption) hinv
      · exact Option.noConfusion hstep
    | inMutexA =>
      dsimp only at hstep
      cases hstep
      exact inv_step_inMutexA hst hinv
    | gotTicket t =>
      dsimp only at hstep
      cases hstep
      exact inv_step_gotTicket hst hinv
    | waitSlot t =>
      dsimp only at hstep
      split at hstep
      · cases hstep
        exact inv_step_waitSlot hst (by assumption) hinv
      · exact Option.noConfusion hstep
    | gotSlot t =>
      dsimp only at hstep
      cases hstep
      exact inv_step_gotSlot hst hinv
    | holding t =>
      dsimp only at hstep
      split at hstep
      · cases hstep
        exact inv_step_holding hst (by assumption) hinv
      · exact Option.noConfusion hstep
    | relMutex t =>
      dsimp only at hstep
      cases hstep
      exact inv_step_relMutex hst hinv
    | relTurn t =>
      dsimp only at hstep
      cases hstep
      exact inv_step_relTurn hst hinv
    | relPosted t =>
      dsimp only at hstep
      cases hstep
      exact inv_step_relPosted hst hinv

theorem tlRun_inv (n : Nat) (sched : List Nat) {s : TLState}
    (h : tlRun n sched = some s) : TLInv s := by
  rw [tlRun] at h
  have hgen : ∀ (sched : List Nat) (s0 s1 : TLState), TLInv s0 →
      sched.foldlM tlStep s0 = some s1 → TLInv s1 := by
    intro sched
    induction sched with
    | nil =>
      intro s0 s1 h0 h1
      rw [List.foldlM_nil] at h1
      cases h1
      exact h0
    | cons a l ih =>
      intro s0 s1 h0 h1
      rw [List.foldlM_cons] at h1
      cases hs : tlStep s0 a with
      | none => rw [hs] at h1; exact Option.noConfusion h1
      | some s2 =>
        rw [hs] at h1
        exact ih s2 s1 (tlStep_inv h0 hs) h1
  exact hgen sched (tlInit n) s (tlInit_inv n) h

/-- C2: FIFO fairness of the ticket lock.  For every realizable
interleaving of acquire/release rounds by at most `MAX_THREADS = 10`
threads, the grant log — which records, for each completed
`Sem_wait(&m->queue[...])`, the granted ticket and the value of `turn` at
that instant — equals `[(0,0), (1,1), ..., (m-1,m-1)]`: acquisitions are
granted in strictly increasing ticket-assignment order, and the grant of
ticket `t` occurs exactly when `turn = t`, so it is the release that
increments `turn` to `t` (the initial post, for `t = 0`) that unblocks
precisely the waiter holding ticket `t`; no waiter is overtaken by a
later-arriving one. -/
theorem C2_ticket_lock_fifo (n : Nat) (sched : List Nat)
    (g : List (Nat × Nat)) (_hn : n ≤ maxThreads)
    (hrun : tlGrants n sched = some g) :
    g = (List.range g.length).map (fun i => (i, i)) := by
  rw [tlGrants] at hrun
  cases hs : tlRun n sched with
  | none => rw [hs] at hrun; exact Option.noConfusion hrun
  | some s =>
    rw [hs] at hrun
    injection hrun with hg
    have hinv := tlRun_inv n sched hs
    rw [← hg]
    exact hinv.log_inv

/-- C2 witness: two threads, a genuinely interleaved schedule in which
thread 1 takes ticket 1 and blocks on its slot while thread 0 still holds
the lock; the grant log is `[(0,0), (1,1)]`. -/
theorem C2_witness :
    ([(0, 0), (1, 1)] : List (Nat × Nat))
      = (List.range ([(0, 0), (1, 1)] : List (Nat × Nat)).length).map
          (fun i => (i, i)) :=
  C2_ticket_lock_fifo 2
    (List.replicate 6 0 ++ List.replicate 4 1
      ++ List.replicate 4 0 ++ List.replicate 6 1)
    [(0, 0), (1, 1)] (by norm_num [maxThreads]) (by decide)

end TicketLock
